import Mathlib

/-!
Verification of the ChaCha20 stream cipher core from `src/comm/chacha20.h`.

The C code is shallowly embedded over `Nat`: a `uint32_t` value is a natural
number reduced modulo `2^32` at every arithmetic operation that can wrap, a
`uint8_t` array cell is read modulo `2^8`, and the 16-word state array is a
`List Nat`.  Every definition mirrors the corresponding C function; the loops
of `chacha20_serialize` and `chacha20_init_state` are unrolled (they have
fixed trip counts), the round loop and the counter-mode loop are modelled by
recursion.
-/

namespace ChaCha20

/-- Embeds `u32t8le`: the four little-endian bytes of a 32-bit word,
`p[0] = v & 0xff; p[1] = (v >> 8) & 0xff; p[2] = (v >> 16) & 0xff;
p[3] = (v >> 24) & 0xff`. -/
def u32t8le (v : Nat) : List Nat :=
  [v &&& 0xff, (v >>> 8) &&& 0xff, (v >>> 16) &&& 0xff, (v >>> 24) &&& 0xff]

/-- Embeds `u8t32le`: rebuild a 32-bit word from four little-endian bytes.
Each array read of a `uint8_t` cell is taken modulo 256, and each `uint32_t`
shift result modulo `2^32`, mirroring the C types. -/
def u8t32le (p : List Nat) : Nat :=
  let value := p.getD 3 0 % 256
  let value := ((value <<< 8) % 2^32) ||| (p.getD 2 0 % 256)
  let value := ((value <<< 8) % 2^32) ||| (p.getD 1 0 % 256)
  let value := ((value <<< 8) % 2^32) ||| (p.getD 0 0 % 256)
  value

/-- Embeds `rotl32`: `x << n | (x >> (-n & 31))`, where `-n & 31` on a
32-bit machine equals `(32 - n % 32) % 32` for the shift amounts used. -/
def rotl32 (x : Nat) (n : Nat) : Nat :=
  ((x <<< n) % 2^32) ||| (x >>> ((32 - n % 32) % 32))

/-- Embeds `chacha20_quarterround`: the four sequential add-rotate-xor steps
on state positions `a b c d`, each addition wrapping modulo `2^32`. -/
def chacha20_quarterround (x : List Nat) (a b c d : Nat) : List Nat :=
  let x := x.set a ((x.getD a 0 + x.getD b 0) % 2^32)
  let x := x.set d (rotl32 (x.getD d 0 ^^^ x.getD a 0) 16)
  let x := x.set c ((x.getD c 0 + x.getD d 0) % 2^32)
  let x := x.set b (rotl32 (x.getD b 0 ^^^ x.getD c 0) 12)
  let x := x.set a ((x.getD a 0 + x.getD b 0) % 2^32)
  let x := x.set d (rotl32 (x.getD d 0 ^^^ x.getD a 0) 8)
  let x := x.set c ((x.getD c 0 + x.getD d 0) % 2^32)
  x.set b (rotl32 (x.getD b 0 ^^^ x.getD c 0) 7)

/-- One iteration of the round loop in `chacha20_block`: the four column
quarter rounds followed by the four diagonal quarter rounds. -/
def chacha20_doubleround (x : List Nat) : List Nat :=
  let x := chacha20_quarterround x 0 4 8 12
  let x := chacha20_quarterround x 1 5 9 13
  let x := chacha20_quarterround x 2 6 10 14
  let x := chacha20_quarterround x 3 7 11 15
  let x := chacha20_quarterround x 0 5 10 15
  let x := chacha20_quarterround x 1 6 11 12
  let x := chacha20_quarterround x 2 7 8 13
  chacha20_quarterround x 3 4 9 14

/-- The round loop of `chacha20_block`:
`for (i = num_rounds; i > 0; i -= 2)` running the eight quarter rounds,
i.e. one `chacha20_doubleround`, per iteration. -/
def chacha20_rounds (x : List Nat) : Nat → List Nat
  | 0 => x
  | 1 => chacha20_doubleround x
  | n + 2 => chacha20_rounds (chacha20_doubleround x) n

/-- Embeds `chacha20_serialize`: the loop `u32t8le(in[i], output + (i << 2))`
for `i = 0..15`, unrolled. -/
def chacha20_serialize (x : List Nat) : List Nat :=
  u32t8le (x.getD 0 0) ++ u32t8le (x.getD 1 0) ++ u32t8le (x.getD 2 0) ++
  u32t8le (x.getD 3 0) ++ u32t8le (x.getD 4 0) ++ u32t8le (x.getD 5 0) ++
  u32t8le (x.getD 6 0) ++ u32t8le (x.getD 7 0) ++ u32t8le (x.getD 8 0) ++
  u32t8le (x.getD 9 0) ++ u32t8le (x.getD 10 0) ++ u32t8le (x.getD 11 0) ++
  u32t8le (x.getD 12 0) ++ u32t8le (x.getD 13 0) ++ u32t8le (x.getD 14 0) ++
  u32t8le (x.getD 15 0)

/-- Embeds `chacha20_block`: copy the state, run the round loop, add the
original state word-wise modulo `2^32` (feedforward, unrolled), serialize. -/
def chacha20_block (s : List Nat) (numRounds : Nat) : List Nat :=
  let x := chacha20_rounds s numRounds
  chacha20_serialize
    [(x.getD 0 0 + s.getD 0 0) % 2^32, (x.getD 1 0 + s.getD 1 0) % 2^32,
     (x.getD 2 0 + s.getD 2 0) % 2^32, (x.getD 3 0 + s.getD 3 0) % 2^32,
     (x.getD 4 0 + s.getD 4 0) % 2^32, (x.getD 5 0 + s.getD 5 0) % 2^32,
     (x.getD 6 0 + s.getD 6 0) % 2^32, (x.getD 7 0 + s.getD 7 0) % 2^32,
     (x.getD 8 0 + s.getD 8 0) % 2^32, (x.getD 9 0 + s.getD 9 0) % 2^32,
     (x.getD 10 0 + s.getD 10 0) % 2^32, (x.getD 11 0 + s.getD 11 0) % 2^32,
     (x.getD 12 0 + s.getD 12 0) % 2^32, (x.getD 13 0 + s.getD 13 0) % 2^32,
     (x.getD 14 0 + s.getD 14 0) % 2^32, (x.getD 15 0 + s.getD 15 0) % 2^32]

/-- Embeds `chacha20_init_state`: constants in words 0-3, the eight key words
`u8t32le(key + i*4)` in words 4-11, the counter (a `uint32_t` parameter) in
word 12, the three nonce words `u8t32le(nonce + i*4)` in words 13-15.  The
two fixed-count loops are unrolled. -/
def chacha20_init_state (key : List Nat) (counter : Nat) (nonce : List Nat) :
    List Nat :=
  [0x61707865, 0x3320646e, 0x79622d32, 0x6b206574,
   u8t32le (key.drop 0), u8t32le (key.drop 4),
   u8t32le (key.drop 8), u8t32le (key.drop 12),
   u8t32le (key.drop 16), u8t32le (key.drop 20),
   u8t32le (key.drop 24), u8t32le (key.drop 28),
   counter % 2^32,
   u8t32le (nonce.drop 0), u8t32le (nonce.drop 4), u8t32le (nonce.drop 8)]

/-- The statement `s[12]++;` of `ChaCha20XOR`: increment the counter word,
wrapping modulo `2^32`. -/
def chacha20_inc_counter (s : List Nat) : List Nat :=
  s.set 12 ((s.getD 12 0 + 1) % 2^32)

/-- The byte combination `out[j] = in[j] ^ block[j - i]` of `ChaCha20XOR`:
the input cell is a `uint8_t` read, hence taken modulo 256. -/
def xorBytes (a b : Nat) : Nat := (a % 256) ^^^ b

/-- The counter-mode loop of `ChaCha20XOR` (`for (i = 0; i < inlen; i += 64)`),
recursing on the number of remaining iterations; the loop performs exactly
`(inlen + 63) / 64` iterations.  Each iteration produces one keystream block
for the current state, increments the counter word, and XORs the keystream
against the up-to-64 input bytes of the current chunk.  Returns the output
bytes together with the state array as it stands when the loop ends. -/
def chacha20_xor_loop (s : List Nat) (inp : List Nat) : Nat → List Nat × List Nat
  | 0 => ([], s)
  | n + 1 =>
    let block := chacha20_block s 20
    let rest := chacha20_xor_loop (chacha20_inc_counter s) (inp.drop 64) n
    (List.zipWith xorBytes (inp.take 64) block ++ rest.1, rest.2)

/-- Embeds `ChaCha20XOR`: initialize the state from key, counter and nonce,
then run the counter-mode loop, which iterates `(inlen + 63) / 64` times;
the output buffer is the first component of the loop's result. -/
def ChaCha20XOR (key : List Nat) (counter : Nat) (nonce : List Nat)
    (inp : List Nat) : List Nat :=
  (chacha20_xor_loop (chacha20_init_state key counter nonce) inp
    ((inp.length + 63) / 64)).1

/-- The concatenation of `n` successive keystream blocks produced from state
`s`, the counter word advancing by one per block exactly as in the loop of
`ChaCha20XOR`. -/
def keystream (s : List Nat) : Nat → List Nat
  | 0 => []
  | n + 1 => chacha20_block s 20 ++ keystream (chacha20_inc_counter s) n

/-! ### Basic facts about the byte-level codec and the keystream -/

theorem and_255_eq_mod (x : Nat) : x &&& 255 = x % 256 := by
  have h := Nat.and_pow_two_sub_one_eq_mod x 8
  norm_num at h
  exact h

theorem lor_eq_add (a b : Nat) (hb : b < 256) : (a <<< 8) ||| b = 256 * a + b := by
  have hb2 : b < 2 ^ 8 := lt_of_lt_of_le hb (by norm_num)
  have h := (Nat.mul_add_lt_is_or hb2 a).symm
  rw [Nat.shiftLeft_eq, Nat.mul_comm a (2 ^ 8), h]

theorem u32t8le_length (v : Nat) : (u32t8le v).length = 4 := rfl

theorem u32t8le_lt (v : Nat) : ∀ b ∈ u32t8le v, b < 256 := by
  intro b hb
  simp only [u32t8le, List.mem_cons, List.not_mem_nil, or_false] at hb
  rcases hb with h | h | h | h <;> subst h <;>
    exact lt_of_le_of_lt Nat.and_le_right (by norm_num)

theorem chacha20_serialize_length (x : List Nat) :
    (chacha20_serialize x).length = 64 := by
  simp [chacha20_serialize, u32t8le]

theorem chacha20_serialize_lt (x : List Nat) :
    ∀ b ∈ chacha20_serialize x, b < 256 := by
  intro b hb
  simp only [chacha20_serialize, List.mem_append, or_assoc] at hb
  rcases hb with h | h | h | h | h | h | h | h | h | h | h | h | h | h | h | h <;>
    exact u32t8le_lt _ b h

theorem chacha20_block_length (s : List Nat) (r : Nat) :
    (chacha20_block s r).length = 64 := by
  simp only [chacha20_block]
  exact chacha20_serialize_length _

theorem chacha20_block_lt (s : List Nat) (r : Nat) :
    ∀ b ∈ chacha20_block s r, b < 256 := by
  intro b hb
  simp only [chacha20_block] at hb
  exact chacha20_serialize_lt _ b hb

theorem keystream_length (s : List Nat) (n : Nat) :
    (keystream s n).length = 64 * n := by
  induction n generalizing s with
  | zero => rfl
  | succ n ih =>
    simp only [keystream, List.length_append, chacha20_block_length, ih]
    omega

theorem keystream_lt (s : List Nat) (n : Nat) : ∀ b ∈ keystream s n, b < 256 := by
  induction n generalizing s with
  | zero => intro b hb; simp [keystream] at hb
  | succ n ih =>
    intro b hb
    simp only [keystream, List.mem_append] at hb
    rcases hb with h | h
    · exact chacha20_block_lt _ _ b h
    · exact ih _ b h

theorem xorBytes_lt (a b : Nat) (hb : b < 256) : xorBytes a b < 256 := by
  have h : a % 256 < 2 ^ 8 := by have := Nat.mod_lt a (y := 256) (by norm_num); norm_num; omega
  have h2 : b < 2 ^ 8 := by norm_num; omega
  have := Nat.xor_lt_two_pow h h2
  simpa [xorBytes] using this

/-! ### The counter-mode loop computes an XOR with the keystream -/

theorem zipWith_eq_append (f : Nat → Nat → Nat) :
    ∀ (l₁ l l₂ : List Nat),
    List.zipWith f l (l₁ ++ l₂)
      = List.zipWith f (l.take l₁.length) l₁
        ++ List.zipWith f (l.drop l₁.length) l₂ := by
  intro l₁
  induction l₁ with
  | nil => intro l l₂; simp
  | cons b bs ih =>
    intro l l₂
    cases l with
    | nil => simp
    | cons a as => simp [ih]

theorem xor_loop_fst (n : Nat) :
    ∀ (inp s : List Nat), inp.length ≤ 64 * n →
    (chacha20_xor_loop s inp n).1 = List.zipWith xorBytes inp (keystream s n) := by
  induction n with
  | zero =>
    intro inp s h
    have : inp = [] := List.eq_nil_of_length_eq_zero (by omega)
    subst this; rfl
  | succ n ih =>
    intro inp s h
    have hd : (inp.drop 64).length ≤ 64 * n := by
      simp only [List.length_drop]; omega
    simp only [chacha20_xor_loop, keystream]
    rw [ih (inp.drop 64) (chacha20_inc_counter s) hd]
    rw [zipWith_eq_append xorBytes (chacha20_block s 20) inp
      (keystream (chacha20_inc_counter s) n)]
    rw [chacha20_block_length]

theorem ChaCha20XOR_eq_zipWith (key : List Nat) (c : Nat) (nonce : List Nat)
    (inp : List Nat) :
    ChaCha20XOR key c nonce inp
      = List.zipWith xorBytes inp
          (keystream (chacha20_init_state key c nonce) ((inp.length + 63) / 64)) := by
  exact xor_loop_fst _ inp _ (by omega)

theorem ChaCha20XOR_length (key : List Nat) (c : Nat) (nonce : List Nat)
    (inp : List Nat) :
    (ChaCha20XOR key c nonce inp).length = inp.length := by
  rw [ChaCha20XOR_eq_zipWith]
  rw [List.length_zipWith, keystream_length]
  omega

theorem lt256_pow {x : Nat} (h : x < 256) : x < 2 ^ 8 :=
  lt_of_lt_of_le h (by norm_num)

theorem zipWith_xorBytes_lt :
    ∀ (p ks : List Nat), (∀ b ∈ ks, b < 256) →
    ∀ b ∈ List.zipWith xorBytes p ks, b < 256 := by
  intro p
  induction p with
  | nil => intro ks _ b hb; simp at hb
  | cons a t ih =>
    intro ks hks b hb
    cases ks with
    | nil => simp at hb
    | cons k kt =>
      simp only [List.zipWith_cons_cons, List.mem_cons] at hb
      rcases hb with h | h
      · subst h; exact xorBytes_lt a k (hks k (by simp))
      · exact ih kt (fun x hx => hks x (List.mem_cons_of_mem k hx)) b h

theorem zipWith_xorBytes_invol :
    ∀ (p ks : List Nat), (∀ b ∈ p, b < 256) → (∀ b ∈ ks, b < 256) →
    p.length ≤ ks.length →
    List.zipWith xorBytes (List.zipWith xorBytes p ks) ks = p := by
  intro p
  induction p with
  | nil => intro ks _ _ _; simp
  | cons a t ih =>
    intro ks hp hks hlen
    cases ks with
    | nil => simp at hlen
    | cons k kt =>
      have ha : a < 256 := hp a (List.mem_cons_self a t)
      have hk : k < 256 := hks k (List.mem_cons_self k kt)
      have hhead : xorBytes (xorBytes a k) k = a := by
        simp only [xorBytes]
        rw [Nat.mod_eq_of_lt ha]
        have hx : a ^^^ k < 256 := by
          have := Nat.xor_lt_two_pow (lt256_pow ha) (lt256_pow hk)
          norm_num at this
          exact this
        rw [Nat.mod_eq_of_lt hx, Nat.xor_assoc, Nat.xor_self, Nat.xor_zero]
      rw [List.zipWith_cons_cons, List.zipWith_cons_cons, hhead,
        ih kt (fun x hx => hp x (List.mem_cons_of_mem a hx))
          (fun x hx => hks x (List.mem_cons_of_mem k hx)) (by simpa using hlen)]

/-! ### Keystream prefix facts -/

theorem keystream_add (s : List Nat) (m j : Nat) :
    keystream s (m + j)
      = keystream s m ++ keystream (chacha20_inc_counter^[m] s) j := by
  induction m generalizing s with
  | zero => simp [keystream]
  | succ m ih =>
    have h : (m + 1) + j = (m + j) + 1 := by omega
    rw [h]
    simp only [keystream]
    rw [ih (chacha20_inc_counter s)]
    simp [Function.iterate_succ_apply, List.append_assoc]

theorem zipWith_keystream_ext (l : List Nat) (s : List Nat) (m j : Nat)
    (h : l.length ≤ 64 * m) :
    List.zipWith xorBytes l (keystream s (m + j))
      = List.zipWith xorBytes l (keystream s m) := by
  rw [keystream_add, zipWith_eq_append, keystream_length]
  rw [List.take_of_length_le (by omega), List.drop_eq_nil_of_le (by omega)]
  simp

theorem ChaCha20XOR_eq_zipWith_of_le (key : List Nat) (c : Nat) (nonce : List Nat)
    (inp : List Nat) (n : Nat) (h : inp.length ≤ 64 * n) :
    ChaCha20XOR key c nonce inp
      = List.zipWith xorBytes inp
          (keystream (chacha20_init_state key c nonce) n) := by
  rw [ChaCha20XOR_eq_zipWith]
  have hn : (inp.length + 63) / 64 ≤ n := by omega
  obtain ⟨j, hj⟩ := Nat.le.dest hn
  rw [← hj]
  exact (zipWith_keystream_ext inp _ _ j (by omega)).symm

theorem zipWith_take_right (f : Nat → Nat → Nat) :
    ∀ (l l' : List Nat) (k : Nat), l.length ≤ k →
    List.zipWith f l (l'.take k) = List.zipWith f l l' := by
  intro l
  induction l with
  | nil => simp
  | cons a t ih =>
    intro l' k hk
    cases l' with
    | nil => simp
    | cons b bt =>
      cases k with
      | zero => simp at hk
      | succ k =>
        simp only [List.take_succ_cons, List.zipWith_cons_cons]
        rw [ih bt k (by simpa using hk)]

/-! ### Claim theorems: round trip, known vector, boundaries, purity, prefixes -/

/-- C1: for every key, initial counter, nonce and byte input, applying the
cipher twice with the same parameters returns the original input:
`ChaCha20XOR(key, counter, nonce, ChaCha20XOR(key, counter, nonce, p)) = p`. -/
theorem cipher_roundtrip (key : List Nat) (c : Nat) (nonce : List Nat)
    (p : List Nat) (hp : ∀ b ∈ p, b < 256) :
    ChaCha20XOR key c nonce (ChaCha20XOR key c nonce p) = p := by
  have hlen := ChaCha20XOR_length key c nonce p
  rw [ChaCha20XOR_eq_zipWith key c nonce (ChaCha20XOR key c nonce p), hlen,
    ChaCha20XOR_eq_zipWith key c nonce p]
  exact zipWith_xorBytes_invol p _ hp (keystream_lt _ _)
    (by rw [keystream_length]; omega)

theorem cipher_roundtrip_witness :
    (∀ b ∈ [10, 200, 30], b < 256)
    ∧ ChaCha20XOR (List.replicate 32 0) 7 (List.replicate 12 0)
        (ChaCha20XOR (List.replicate 32 0) 7 (List.replicate 12 0) [10, 200, 30])
      = [10, 200, 30] :=
  ⟨by decide,
   cipher_roundtrip (List.replicate 32 0) 7 (List.replicate 12 0) [10, 200, 30]
     (by decide)⟩

/-- The first 64-byte ChaCha20 keystream block for an all-zero 32-byte key,
all-zero 12-byte nonce and counter 0, as published for RFC 7539 ChaCha20. -/
def rfc7539_keystream_block : List Nat :=
  [0x76, 0xb8, 0xe0, 0xad, 0xa0, 0xf1, 0x3d, 0x90, 0x40, 0x5d, 0x6a, 0xe5,
   0x53, 0x86, 0xbd, 0x28, 0xbd, 0xd2, 0x19, 0xb8, 0xa0, 0x8d, 0xed, 0x1a,
   0xa8, 0x36, 0xef, 0xcc, 0x8b, 0x77, 0x0d, 0xc7, 0xda, 0x41, 0x59, 0x7c,
   0x51, 0x57, 0x48, 0x8d, 0x77, 0x24, 0xe0, 0x3f, 0xb8, 0xd8, 0x4a, 0x37,
   0x6a, 0x43, 0xb8, 0xf4, 0x15, 0x18, 0xa1, 0x1c, 0xc3, 0x87, 0xb6, 0x69,
   0xb2, 0xee, 0x65, 0x86]

set_option maxRecDepth 100000 in
/-- C2: with an all-zero key, all-zero nonce and counter 0, the first 64-byte
keystream block of `chacha20_block` with 20 rounds is byte-for-byte the
published RFC 7539 test vector, and `ChaCha20XOR` on a 64-byte all-zero
input produces exactly that constant. -/
theorem known_vector_correctness :
    chacha20_block
        (chacha20_init_state (List.replicate 32 0) 0 (List.replicate 12 0)) 20
      = rfc7539_keystream_block
    ∧ ChaCha20XOR (List.replicate 32 0) 0 (List.replicate 12 0)
        (List.replicate 64 0)
      = rfc7539_keystream_block :=
  ⟨by decide, by decide⟩

/-- C5: the cipher writes exactly one output byte per input byte: the empty
input yields the empty output, the output length equals the input length,
and the output is the XOR of the input with the first `L` bytes of the
concatenated keystream — of the final keystream block only the first
`L mod 64` bytes are consumed (the `zipWith` truncates the keystream at the
input's end). -/
theorem boundary_handling (key : List Nat) (c : Nat) (nonce : List Nat)
    (inp : List Nat) :
    ChaCha20XOR key c nonce [] = []
    ∧ (ChaCha20XOR key c nonce inp).length = inp.length
    ∧ ChaCha20XOR key c nonce inp
        = List.zipWith xorBytes inp
            (keystream (chacha20_init_state key c nonce)
              ((inp.length + 63) / 64)) :=
  ⟨rfl, ChaCha20XOR_length key c nonce inp, ChaCha20XOR_eq_zipWith key c nonce inp⟩

/-- State-threading embedding of `chacha20_block`: the first component is the
caller's state array as the function leaves it, the second is the output
buffer.  Mirroring the C body, the rounds and the feedforward write only the
local copy `x` (`memcpy(x, in, ...)`), and no statement assigns through `in`,
so the state array is returned unchanged. -/
def chacha20_block_st (inArr : List Nat) (numRounds : Nat) :
    List Nat × List Nat :=
  let x := inArr
  let x := chacha20_rounds x numRounds
  (inArr, chacha20_serialize
    [(x.getD 0 0 + inArr.getD 0 0) % 2^32, (x.getD 1 0 + inArr.getD 1 0) % 2^32,
     (x.getD 2 0 + inArr.getD 2 0) % 2^32, (x.getD 3 0 + inArr.getD 3 0) % 2^32,
     (x.getD 4 0 + inArr.getD 4 0) % 2^32, (x.getD 5 0 + inArr.getD 5 0) % 2^32,
     (x.getD 6 0 + inArr.getD 6 0) % 2^32, (x.getD 7 0 + inArr.getD 7 0) % 2^32,
     (x.getD 8 0 + inArr.getD 8 0) % 2^32, (x.getD 9 0 + inArr.getD 9 0) % 2^32,
     (x.getD 10 0 + inArr.getD 10 0) % 2^32, (x.getD 11 0 + inArr.getD 11 0) % 2^32,
     (x.getD 12 0 + inArr.getD 12 0) % 2^32, (x.getD 13 0 + inArr.getD 13 0) % 2^32,
     (x.getD 14 0 + inArr.getD 14 0) % 2^32, (x.getD 15 0 + inArr.getD 15 0) % 2^32])

/-- C9: `chacha20_block` leaves the caller's state array exactly as it was —
in the state-threading embedding the state component returned equals the
input state — and its output is the pure function `chacha20_block` of
`(state, roundCount)`. -/
theorem block_no_mutation (s : List Nat) (r : Nat) :
    (chacha20_block_st s r).1 = s ∧ (chacha20_block_st s r).2 = chacha20_block s r :=
  ⟨rfl, rfl⟩

/-- C10: truncating the input commutes with the cipher: the first `k` output
bytes on the full input equal the output on the input truncated to `k`
bytes, for every `k`. -/
theorem prefix_stability (key : List Nat) (c : Nat) (nonce : List Nat)
    (inp : List Nat) (k : Nat) :
    (ChaCha20XOR key c nonce inp).take k = ChaCha20XOR key c nonce (inp.take k) := by
  rw [ChaCha20XOR_eq_zipWith key c nonce inp, List.take_zipWith,
    ChaCha20XOR_eq_zipWith_of_le key c nonce (inp.take k) ((inp.length + 63) / 64)
      (by simp only [List.length_take]; omega)]
  exact zipWith_take_right xorBytes (inp.take k) _ k
    (by simp only [List.length_take]; omega)

/-! ### Counter evolution of the loop state -/

theorem getD_set_ne (l : List Nat) (i j v : Nat) (h : i ≠ j) :
    (l.set i v).getD j 0 = l.getD j 0 := by
  simp [List.getD_eq_getElem?_getD, List.getElem?_set_ne h]

theorem getD_set_self (l : List Nat) (i v : Nat) (h : i < l.length) :
    (l.set i v).getD i 0 = v := by
  simp [List.getD_eq_getElem?_getD, List.getElem?_set_self h]

theorem inc_counter_length (s : List Nat) :
    (chacha20_inc_counter s).length = s.length := by
  simp [chacha20_inc_counter]

theorem inc_counter_getD_12 (s : List Nat) (h : 12 < s.length) :
    (chacha20_inc_counter s).getD 12 0 = (s.getD 12 0 + 1) % 2^32 :=
  getD_set_self s 12 _ h

theorem inc_counter_getD_ne (s : List Nat) (i : Nat) (h : i ≠ 12) :
    (chacha20_inc_counter s).getD i 0 = s.getD i 0 :=
  getD_set_ne s 12 i _ (fun he => h he.symm)

theorem xor_loop_snd_counter (n : Nat) :
    ∀ (inp s : List Nat), 12 < s.length → s.getD 12 0 < 2^32 →
    (chacha20_xor_loop s inp n).2.getD 12 0 = (s.getD 12 0 + n) % 2^32 := by
  induction n with
  | zero =>
    intro inp s _ h2
    show s.getD 12 0 = (s.getD 12 0 + 0) % 2^32
    rw [Nat.add_zero, Nat.mod_eq_of_lt h2]
  | succ n ih =>
    intro inp s hlen h2
    simp only [chacha20_xor_loop]
    rw [ih (inp.drop 64) (chacha20_inc_counter s)
      (by rw [inc_counter_length]; exact hlen)
      (by rw [inc_counter_getD_12 s hlen]; exact Nat.mod_lt _ (by norm_num))]
    rw [inc_counter_getD_12 s hlen, Nat.mod_add_mod]
    have h : s.getD 12 0 + 1 + n = s.getD 12 0 + (n + 1) := by omega
    rw [h]

theorem xor_loop_snd_frame (n : Nat) :
    ∀ (inp s : List Nat) (i : Nat), i ≠ 12 →
    (chacha20_xor_loop s inp n).2.getD i 0 = s.getD i 0 := by
  induction n with
  | zero => intro inp s i _; rfl
  | succ n ih =>
    intro inp s i h
    simp only [chacha20_xor_loop]
    rw [ih (inp.drop 64) (chacha20_inc_counter s) i h, inc_counter_getD_ne s i h]

/-- C4: over the `ceil(L/64)` iterations of the `ChaCha20XOR` loop the state's
word 12 advances by exactly one per iteration modulo `2^32` — so when the
loop ends it has advanced by exactly `ceil(L/64)` from the initial counter
argument — while every other state word still holds its initialized value. -/
theorem counter_advancement (key : List Nat) (c : Nat) (nonce : List Nat)
    (inp : List Nat) :
    (chacha20_xor_loop (chacha20_init_state key c nonce) inp
        ((inp.length + 63) / 64)).2.getD 12 0
      = (c + (inp.length + 63) / 64) % 2^32
    ∧ ∀ i, i ≠ 12 →
      (chacha20_xor_loop (chacha20_init_state key c nonce) inp
          ((inp.length + 63) / 64)).2.getD i 0
        = (chacha20_init_state key c nonce).getD i 0 := by
  constructor
  · have h12 : (chacha20_init_state key c nonce).getD 12 0 = c % 2^32 := rfl
    rw [xor_loop_snd_counter _ inp _ (by simp [chacha20_init_state])
      (by rw [h12]; exact Nat.mod_lt _ (by norm_num))]
    rw [h12, Nat.mod_add_mod]
  · intro i h
    exact xor_loop_snd_frame _ inp _ i h

theorem counter_advancement_witness :
    (chacha20_xor_loop
        (chacha20_init_state (List.replicate 32 0) 7 (List.replicate 12 0))
        [1, 2, 3] (([1, 2, 3].length + 63) / 64)).2.getD 12 0
      = (7 + ([1, 2, 3].length + 63) / 64) % 2^32
    ∧ (chacha20_xor_loop
        (chacha20_init_state (List.replicate 32 0) 7 (List.replicate 12 0))
        [1, 2, 3] (([1, 2, 3].length + 63) / 64)).2.getD 0 0
      = (chacha20_init_state (List.replicate 32 0) 7 (List.replicate 12 0)).getD 0 0 :=
  ⟨(counter_advancement (List.replicate 32 0) 7 (List.replicate 12 0) [1, 2, 3]).1,
   (counter_advancement (List.replicate 32 0) 7 (List.replicate 12 0) [1, 2, 3]).2
     0 (by decide)⟩

/-! ### Block independence -/

theorem keystream_drop (i : Nat) :
    ∀ (n : Nat) (s : List Nat),
    (keystream s n).drop (64 * i)
      = keystream (chacha20_inc_counter^[i] s) (n - i) := by
  induction i with
  | zero => intro n s; simp
  | succ i ih =>
    intro n s
    cases n with
    | zero => simp [keystream]
    | succ n =>
      have h64 : 64 * (i + 1) = 64 + 64 * i := by ring
      simp only [keystream, h64]
      rw [← List.drop_drop, List.drop_left' (chacha20_block_length s 20)]
      rw [ih n (chacha20_inc_counter s)]
      rw [Function.iterate_succ_apply]
      simp

theorem inc_counter_init (key : List Nat) (c : Nat) (nonce : List Nat) :
    chacha20_inc_counter (chacha20_init_state key c nonce)
      = chacha20_init_state key (c + 1) nonce := by
  have h : chacha20_inc_counter (chacha20_init_state key c nonce)
      = chacha20_init_state key (c % 2^32 + 1) nonce := rfl
  rw [h]
  simp only [chacha20_init_state, Nat.mod_add_mod]

theorem inc_counter_iterate_init (key : List Nat) (nonce : List Nat) (i : Nat) :
    ∀ c, chacha20_inc_counter^[i] (chacha20_init_state key c nonce)
      = chacha20_init_state key (c + i) nonce := by
  induction i with
  | zero => intro c; simp
  | succ i ih =>
    intro c
    rw [Function.iterate_succ_apply, inc_counter_init, ih (c + 1)]
    have h : c + 1 + i = c + (i + 1) := by omega
    rw [h]

/-- C6: output block `i` of the cipher depends only on
`(key, nonce, initialCounter + i)`: the output bytes in
`[64*i, min(64*(i+1), L))` equal the output of a fresh `ChaCha20XOR` call with
counter `c + i` on the corresponding input chunk alone. -/
theorem block_independence (key : List Nat) (c : Nat) (nonce : List Nat)
    (inp : List Nat) (i : Nat) (h : 64 * i < inp.length) :
    ((ChaCha20XOR key c nonce inp).drop (64 * i)).take 64
      = ChaCha20XOR key (c + i) nonce ((inp.drop (64 * i)).take 64) := by
  rw [ChaCha20XOR_eq_zipWith key c nonce inp, List.drop_zipWith, List.take_zipWith]
  rw [keystream_drop i ((inp.length + 63) / 64) _,
    inc_counter_iterate_init key nonce i c]
  have hchunk : ((inp.drop (64 * i)).take 64).length
      ≤ 64 * ((inp.length + 63) / 64 - i) := by
    simp only [List.length_take, List.length_drop]
    omega
  rw [ChaCha20XOR_eq_zipWith_of_le key (c + i) nonce _ _ hchunk]
  exact zipWith_take_right xorBytes _ _ 64
    (by simp only [List.length_take]; omega)

theorem block_independence_witness :
    64 * 1 < (List.replicate 70 3).length
    ∧ ((ChaCha20XOR (List.replicate 32 0) 5 (List.replicate 12 0)
          (List.replicate 70 3)).drop (64 * 1)).take 64
      = ChaCha20XOR (List.replicate 32 0) (5 + 1) (List.replicate 12 0)
          (((List.replicate 70 3).drop (64 * 1)).take 64) :=
  ⟨by decide,
   block_independence (List.replicate 32 0) 5 (List.replicate 12 0)
     (List.replicate 70 3) 1 (by decide)⟩

/-! ### The endian codec -/

theorem shiftLeft8_mod_eq (v : Nat) (hv : v < 16777216) :
    (v <<< 8) % 2^32 = 256 * v := by
  rw [Nat.shiftLeft_eq]
  have h : v * 2^8 = 256 * v := by ring
  rw [h]
  exact Nat.mod_eq_of_lt (by norm_num; omega)

theorem lor_mul_eq_add (a b : Nat) (hb : b < 256) :
    (256 * a) ||| b = 256 * a + b := by
  have h := (Nat.mul_add_lt_is_or (lt256_pow hb) a).symm
  norm_num at h ⊢
  exact h

theorem u8t32le_eq (p : List Nat) :
    u8t32le p = p.getD 0 0 % 256 + 256 * (p.getD 1 0 % 256)
      + 65536 * (p.getD 2 0 % 256) + 16777216 * (p.getD 3 0 % 256) := by
  have h0 : p.getD 0 0 % 256 < 256 := Nat.mod_lt _ (by norm_num)
  have h1 : p.getD 1 0 % 256 < 256 := Nat.mod_lt _ (by norm_num)
  have h2 : p.getD 2 0 % 256 < 256 := Nat.mod_lt _ (by norm_num)
  have h3 : p.getD 3 0 % 256 < 256 := Nat.mod_lt _ (by norm_num)
  simp only [u8t32le]
  rw [shiftLeft8_mod_eq (p.getD 3 0 % 256) (by omega),
    lor_mul_eq_add (p.getD 3 0 % 256) _ h2]
  rw [shiftLeft8_mod_eq (256 * (p.getD 3 0 % 256) + p.getD 2 0 % 256) (by omega),
    lor_mul_eq_add (256 * (p.getD 3 0 % 256) + p.getD 2 0 % 256) _ h1]
  rw [shiftLeft8_mod_eq
      (256 * (256 * (p.getD 3 0 % 256) + p.getD 2 0 % 256) + p.getD 1 0 % 256)
      (by omega),
    lor_mul_eq_add
      (256 * (256 * (p.getD 3 0 % 256) + p.getD 2 0 % 256) + p.getD 1 0 % 256)
      _ h0]
  ring

/-- C8: each byte `i` of `u32t8le v` is `(v >>> (8*i)) &&& 0xff`, both codec
functions are total, and `u8t32le` inverts `u32t8le` on every 32-bit word. -/
theorem endian_codec_inverse (v : Nat) :
    (∀ i, i < 4 → (u32t8le v).getD i 0 = (v >>> (8 * i)) &&& 0xff)
    ∧ (v < 2^32 → u8t32le (u32t8le v) = v) := by
  constructor
  · intro i hi
    interval_cases i <;> rfl
  · intro hv
    rw [u8t32le_eq]
    have g0 : (u32t8le v).getD 0 0 = v &&& 255 := rfl
    have g1 : (u32t8le v).getD 1 0 = (v >>> 8) &&& 255 := rfl
    have g2 : (u32t8le v).getD 2 0 = (v >>> 16) &&& 255 := rfl
    have g3 : (u32t8le v).getD 3 0 = (v >>> 24) &&& 255 := rfl
    rw [g0, g1, g2, g3, and_255_eq_mod, and_255_eq_mod, and_255_eq_mod,
      and_255_eq_mod, Nat.shiftRight_eq_div_pow, Nat.shiftRight_eq_div_pow,
      Nat.shiftRight_eq_div_pow]
    norm_num at hv ⊢
    omega

theorem endian_codec_inverse_witness :
    (u32t8le 305419896).getD 1 0 = (305419896 >>> (8 * 1)) &&& 0xff
    ∧ u8t32le (u32t8le 305419896) = 305419896 :=
  ⟨(endian_codec_inverse 305419896).1 1 (by decide),
   (endian_codec_inverse 305419896).2 (by decide)⟩

/-! ### The initial state layout -/

theorem getD_drop (l : List Nat) (k j : Nat) :
    (l.drop k).getD j 0 = l.getD (k + j) 0 := by
  simp [List.getD_eq_getElem?_getD, List.getElem?_drop]

theorem getD_mod_256 (l : List Nat) (h : ∀ b ∈ l, b < 256) (j : Nat) :
    l.getD j 0 % 256 = l.getD j 0 := by
  rcases hlt : l[j]? with _ | v
  · simp [List.getD_eq_getElem?_getD, hlt]
  · have hv : v ∈ l := List.getElem?_mem hlt
    simp [List.getD_eq_getElem?_getD, hlt, Nat.mod_eq_of_lt (h v hv)]

theorem u8t32le_drop (l : List Nat) (k : Nat) (h : ∀ b ∈ l, b < 256) :
    u8t32le (l.drop k)
      = l.getD k 0 + 256 * l.getD (k + 1) 0 + 65536 * l.getD (k + 2) 0
        + 16777216 * l.getD (k + 3) 0 := by
  rw [u8t32le_eq]
  simp only [getD_drop, getD_mod_256 l h, Nat.add_zero]

/-- C7: `chacha20_init_state` lays the state out as: words 0-3 the four fixed
constants — which are exactly the four little-endian words of the ASCII bytes
of "expand 32-byte k" — words 4-11 the eight little-endian 32-bit words of
the 32-byte key in order, word 12 the counter argument, and words 13-15 the
three little-endian 32-bit words of the 12-byte nonce in order. -/
theorem init_state_layout (key : List Nat) (c : Nat) (nonce : List Nat)
    (hc : c < 2^32) (hk : ∀ b ∈ key, b < 256) (hn : ∀ b ∈ nonce, b < 256) :
    chacha20_init_state key c nonce =
      [0x61707865, 0x3320646e, 0x79622d32, 0x6b206574,
       key.getD 0 0 + 256 * key.getD 1 0 + 65536 * key.getD 2 0
         + 16777216 * key.getD 3 0,
       key.getD 4 0 + 256 * key.getD 5 0 + 65536 * key.getD 6 0
         + 16777216 * key.getD 7 0,
       key.getD 8 0 + 256 * key.getD 9 0 + 65536 * key.getD 10 0
         + 16777216 * key.getD 11 0,
       key.getD 12 0 + 256 * key.getD 13 0 + 65536 * key.getD 14 0
         + 16777216 * key.getD 15 0,
       key.getD 16 0 + 256 * key.getD 17 0 + 65536 * key.getD 18 0
         + 16777216 * key.getD 19 0,
       key.getD 20 0 + 256 * key.getD 21 0 + 65536 * key.getD 22 0
         + 16777216 * key.getD 23 0,
       key.getD 24 0 + 256 * key.getD 25 0 + 65536 * key.getD 26 0
         + 16777216 * key.getD 27 0,
       key.getD 28 0 + 256 * key.getD 29 0 + 65536 * key.getD 30 0
         + 16777216 * key.getD 31 0,
       c,
       nonce.getD 0 0 + 256 * nonce.getD 1 0 + 65536 * nonce.getD 2 0
         + 16777216 * nonce.getD 3 0,
       nonce.getD 4 0 + 256 * nonce.getD 5 0 + 65536 * nonce.getD 6 0
         + 16777216 * nonce.getD 7 0,
       nonce.getD 8 0 + 256 * nonce.getD 9 0 + 65536 * nonce.getD 10 0
         + 16777216 * nonce.getD 11 0]
    ∧ (List.range 4).map (fun i => u8t32le
        ([0x65, 0x78, 0x70, 0x61, 0x6e, 0x64, 0x20, 0x33, 0x32, 0x2d, 0x62,
          0x79, 0x74, 0x65, 0x20, 0x6b].drop (4 * i)))
      = [0x61707865, 0x3320646e, 0x79622d32, 0x6b206574] := by
  refine ⟨?_, by decide⟩
  simp only [chacha20_init_state]
  rw [u8t32le_drop key 0 hk, u8t32le_drop key 4 hk, u8t32le_drop key 8 hk,
    u8t32le_drop key 12 hk, u8t32le_drop key 16 hk, u8t32le_drop key 20 hk,
    u8t32le_drop key 24 hk, u8t32le_drop key 28 hk, u8t32le_drop nonce 0 hn,
    u8t32le_drop nonce 4 hn, u8t32le_drop nonce 8 hn, Nat.mod_eq_of_lt hc]

theorem init_state_layout_witness :
    (5 < 2^32) ∧ (∀ b ∈ List.range 32, b < 256) ∧ (∀ b ∈ List.range 12, b < 256)
    ∧ ((chacha20_init_state (List.range 32) 5 (List.range 12)).getD 12 0 = 5) :=
  ⟨by decide, by decide, by decide, by
    rw [(init_state_layout (List.range 32) 5 (List.range 12) (by decide)
      (by decide) (by decide)).1]
    decide⟩

/-! ### The block transform, stated as the specification describes it -/

/-- The quarter round exactly as the specification's pseudocode states it:
`a += b; d = rotl(d ^ a, 16); c += d; b = rotl(b ^ c, 12); a += b;
d = rotl(d ^ a, 8); c += d; b = rotl(b ^ c, 7)`, in place on positions
`a b c d`, additions wrapping modulo `2^32`. -/
def quarterroundSpec (x : List Nat) (a b c d : Nat) : List Nat :=
  let x := x.set a ((x.getD a 0 + x.getD b 0) % 2^32)
  let x := x.set d (rotl32 (x.getD d 0 ^^^ x.getD a 0) 16)
  let x := x.set c ((x.getD c 0 + x.getD d 0) % 2^32)
  let x := x.set b (rotl32 (x.getD b 0 ^^^ x.getD c 0) 12)
  let x := x.set a ((x.getD a 0 + x.getD b 0) % 2^32)
  let x := x.set d (rotl32 (x.getD d 0 ^^^ x.getD a 0) 8)
  let x := x.set c ((x.getD c 0 + x.getD d 0) % 2^32)
  x.set b (rotl32 (x.getD b 0 ^^^ x.getD c 0) 7)

/-- A double round as the specification states it: the quarter round on the
four column groups `(0,4,8,12), (1,5,9,13), (2,6,10,14), (3,7,11,15)`, then
on the four diagonal groups `(0,5,10,15), (1,6,11,12), (2,7,8,13),
(3,4,9,14)`. -/
def doubleroundSpec (x : List Nat) : List Nat :=
  let x := quarterroundSpec x 0 4 8 12
  let x := quarterroundSpec x 1 5 9 13
  let x := quarterroundSpec x 2 6 10 14
  let x := quarterroundSpec x 3 7 11 15
  let x := quarterroundSpec x 0 5 10 15
  let x := quarterroundSpec x 1 6 11 12
  let x := quarterroundSpec x 2 7 8 13
  quarterroundSpec x 3 4 9 14

/-- The endian codec as the specification states it: byte `i` of the output
is `(value >>> (8*i)) &&& 0xff`. -/
def wordToLEBytes (v : Nat) : List Nat :=
  [(v >>> (8*0)) &&& 0xff, (v >>> (8*1)) &&& 0xff,
   (v >>> (8*2)) &&& 0xff, (v >>> (8*3)) &&& 0xff]

/-- The block transform as the specification states it: `k` double rounds on
a working copy, word-wise feedforward addition of the original state modulo
`2^32`, then serialization of the 16 words to 64 bytes little-endian, word 0
first. -/
def chacha20_block_spec (s : List Nat) (k : Nat) : List Nat :=
  ((List.zipWith (fun a b => (a + b) % 2^32) (doubleroundSpec^[k] s) s).map
    wordToLEBytes).flatten

set_option maxHeartbeats 400000 in
theorem quarterroundSpec_eq (x : List Nat) (a b c d : Nat) :
    quarterroundSpec x a b c d = chacha20_quarterround x a b c d := rfl

theorem doubleroundSpec_eq (x : List Nat) :
    doubleroundSpec x = chacha20_doubleround x := by
  simp only [doubleroundSpec, chacha20_doubleround, quarterroundSpec_eq]

theorem doubleroundSpec_funext : doubleroundSpec = chacha20_doubleround :=
  funext doubleroundSpec_eq

theorem chacha20_rounds_eq_iterate (k : Nat) :
    ∀ x : List Nat, chacha20_rounds x (2 * k) = chacha20_doubleround^[k] x := by
  induction k with
  | zero => intro x; rfl
  | succ k ih =>
    intro x
    show chacha20_rounds x (2 * k + 2) = chacha20_doubleround^[k + 1] x
    rw [chacha20_rounds, ih, Function.iterate_succ_apply]

theorem chacha20_quarterround_length (x : List Nat) (a b c d : Nat) :
    (chacha20_quarterround x a b c d).length = x.length := by
  simp [chacha20_quarterround]

theorem doubleround_length (x : List Nat) :
    (chacha20_doubleround x).length = x.length := by
  simp [chacha20_doubleround, chacha20_quarterround_length]

theorem iterate_doubleround_length (k : Nat) :
    ∀ x : List Nat, (chacha20_doubleround^[k] x).length = x.length := by
  induction k with
  | zero => intro x; rfl
  | succ k ih =>
    intro x
    rw [Function.iterate_succ_apply, ih, doubleround_length]

theorem exists_eq_16 (s : List Nat) (h : s.length = 16) :
    ∃ a0 a1 a2 a3 a4 a5 a6 a7 a8 a9 a10 a11 a12 a13 a14 a15 : Nat,
      s = [a0, a1, a2, a3, a4, a5, a6, a7, a8, a9, a10, a11, a12, a13, a14, a15] := by
  obtain ⟨a0, s, rfl⟩ := List.exists_of_length_succ s (by omega : s.length = 15 + 1)
  simp only [List.length_cons] at h
  obtain ⟨a1, s, rfl⟩ := List.exists_of_length_succ s (by omega : s.length = 14 + 1)
  simp only [List.length_cons] at h
  obtain ⟨a2, s, rfl⟩ := List.exists_of_length_succ s (by omega : s.length = 13 + 1)
  simp only [List.length_cons] at h
  obtain ⟨a3, s, rfl⟩ := List.exists_of_length_succ s (by omega : s.length = 12 + 1)
  simp only [List.length_cons] at h
  obtain ⟨a4, s, rfl⟩ := List.exists_of_length_succ s (by omega : s.length = 11 + 1)
  simp only [List.length_cons] at h
  obtain ⟨a5, s, rfl⟩ := List.exists_of_length_succ s (by omega : s.length = 10 + 1)
  simp only [List.length_cons] at h
  obtain ⟨a6, s, rfl⟩ := List.exists_of_length_succ s (by omega : s.length = 9 + 1)
  simp only [List.length_cons] at h
  obtain ⟨a7, s, rfl⟩ := List.exists_of_length_succ s (by omega : s.length = 8 + 1)
  simp only [List.length_cons] at h
  obtain ⟨a8, s, rfl⟩ := List.exists_of_length_succ s (by omega : s.length = 7 + 1)
  simp only [List.length_cons] at h
  obtain ⟨a9, s, rfl⟩ := List.exists_of_length_succ s (by omega : s.length = 6 + 1)
  simp only [List.length_cons] at h
  obtain ⟨a10, s, rfl⟩ := List.exists_of_length_succ s (by omega : s.length = 5 + 1)
  simp only [List.length_cons] at h
  obtain ⟨a11, s, rfl⟩ := List.exists_of_length_succ s (by omega : s.length = 4 + 1)
  simp only [List.length_cons] at h
  obtain ⟨a12, s, rfl⟩ := List.exists_of_length_succ s (by omega : s.length = 3 + 1)
  simp only [List.length_cons] at h
  obtain ⟨a13, s, rfl⟩ := List.exists_of_length_succ s (by omega : s.length = 2 + 1)
  simp only [List.length_cons] at h
  obtain ⟨a14, s, rfl⟩ := List.exists_of_length_succ s (by omega : s.length = 1 + 1)
  simp only [List.length_cons] at h
  obtain ⟨a15, s, rfl⟩ := List.exists_of_length_succ s (by omega : s.length = 0 + 1)
  simp only [List.length_cons] at h
  obtain rfl : s = [] := List.eq_nil_of_length_eq_zero (by omega)
  exact ⟨a0, a1, a2, a3, a4, a5, a6, a7, a8, a9, a10, a11, a12, a13, a14, a15, rfl⟩

set_option maxHeartbeats 1600000 in
theorem ff_serialize_eq (w s : List Nat) (hw : w.length = 16) (hs : s.length = 16) :
    chacha20_serialize
      [(w.getD 0 0 + s.getD 0 0) % 2^32, (w.getD 1 0 + s.getD 1 0) % 2^32,
       (w.getD 2 0 + s.getD 2 0) % 2^32, (w.getD 3 0 + s.getD 3 0) % 2^32,
       (w.getD 4 0 + s.getD 4 0) % 2^32, (w.getD 5 0 + s.getD 5 0) % 2^32,
       (w.getD 6 0 + s.getD 6 0) % 2^32, (w.getD 7 0 + s.getD 7 0) % 2^32,
       (w.getD 8 0 + s.getD 8 0) % 2^32, (w.getD 9 0 + s.getD 9 0) % 2^32,
       (w.getD 10 0 + s.getD 10 0) % 2^32, (w.getD 11 0 + s.getD 11 0) % 2^32,
       (w.getD 12 0 + s.getD 12 0) % 2^32, (w.getD 13 0 + s.getD 13 0) % 2^32,
       (w.getD 14 0 + s.getD 14 0) % 2^32, (w.getD 15 0 + s.getD 15 0) % 2^32]
      = ((List.zipWith (fun a b => (a + b) % 2^32) w s).map wordToLEBytes).flatten := by
  obtain ⟨b0, b1, b2, b3, b4, b5, b6, b7, b8, b9, b10, b11, b12, b13, b14, b15, rfl⟩ :=
    exists_eq_16 w hw
  obtain ⟨a0, a1, a2, a3, a4, a5, a6, a7, a8, a9, a10, a11, a12, a13, a14, a15, rfl⟩ :=
    exists_eq_16 s hs
  rfl

/-- C3: for every 16-word state and every even round count `2*k`,
`chacha20_block` computes exactly what the specification describes: `k`
double rounds — each the quarter round on the column groups then on the
diagonal groups, the quarter round being the four add-rotate-xor steps with
wrapping additions and rotations by 16, 12, 8, 7 — applied to a working copy,
then word-wise feedforward addition of the original state modulo `2^32`, then
little-endian serialization of the 16 words, word 0 first. -/
theorem block_transform_spec (s : List Nat) (k : Nat) (hs : s.length = 16) :
    chacha20_block s (2 * k) = chacha20_block_spec s k := by
  simp only [chacha20_block, chacha20_block_spec]
  rw [chacha20_rounds_eq_iterate k s, doubleroundSpec_funext]
  exact ff_serialize_eq _ s (by rw [iterate_doubleround_length]; exact hs) hs

theorem block_transform_spec_witness :
    ([0, 0, 0, 0, 0, 0, 0, 0, 0, 0, 0, 0, 0, 0, 0, 0] : List Nat).length = 16
    ∧ chacha20_block [0, 0, 0, 0, 0, 0, 0, 0, 0, 0, 0, 0, 0, 0, 0, 0] (2 * 1)
      = chacha20_block_spec [0, 0, 0, 0, 0, 0, 0, 0, 0, 0, 0, 0, 0, 0, 0, 0] 1 :=
  ⟨by decide,
   block_transform_spec [0, 0, 0, 0, 0, 0, 0, 0, 0, 0, 0, 0, 0, 0, 0, 0] 1 (by decide)⟩

end ChaCha20
